import Mathlib

/-!
A shallow embedding of `contrib/scrape-ec2-prices.py` and proofs about it.

Modelling conventions:
* Python `dict`s are association lists (`List (String × α)`) in insertion
  order; `dget`/`dset` model subscript read and write.
* Python floats are modelled as exact decimals `mant / 10 ^ exp`
  (`PyFloat`): the script only parses, stores and compares prices, it never
  does float arithmetic, so the decimal value is the faithful content.
* JSON values reaching the script are numbers, strings and objects
  (`JVal`).
* Recursive functions over nested dictionaries are written either by
  mutual structural recursion or with an explicit structural fuel argument
  (initialised with `JVal.size`, which strictly dominates the recursion
  depth), so that every definition is a structural recursion that the
  kernel can evaluate on concrete inputs.
* Python's stable `sorted` is modelled by `List.insertionSort`, which is a
  stable sort; a stable sort is determined up to extensional equality by
  the (total, transitive) "not greater" relation on keys, so this is
  faithful to CPython's timsort.
-/

/-- Lexicographic comparison of two lists given a comparator on elements,
with the shorter list first on ties: the model of Python sequence
comparison (tuples, strings). -/
def lexList (c : α → α → Ordering) : List α → List α → Ordering
  | [], [] => .eq
  | [], _ :: _ => .lt
  | _ :: _, [] => .gt
  | x :: xs, y :: ys => (c x y).then (lexList c xs ys)

/-- Python string comparison: lexicographic by Unicode code point. -/
def charCmp (c d : Char) : Ordering := compare c.toNat d.toNat

/-- Python string comparison on `String`s. -/
def strCmp (a b : String) : Ordering := lexList charCmp a.data b.data

/-- First-match lookup in an association list: Python `d[k]` / `d.get(k)`
(Python dicts have unique keys, for which first match is the match). -/
def dget (l : List (String × α)) (k : String) : Option α :=
  match l with
  | [] => none
  | (k', v) :: rest => if k' = k then some v else dget rest k

/-- Write to an association list: Python `d[k] = v` (replace in place the
value of an existing key, else append the new binding at the end). -/
def dset (l : List (String × α)) (k : String) (v : α) : List (String × α) :=
  match l with
  | [] => [(k, v)]
  | (k', w) :: rest => if k' = k then (k', v) :: rest else (k', w) :: dset rest k v

/-- Truthiness of `d.get(k, False)` when the values are lists/dicts:
`False` (absent) and the empty dict are falsy. -/
def truthyOpt (o : Option (List α)) : Bool :=
  match o with
  | some l => !l.isEmpty
  | none => false

/-- `10 ^ e` as an integer, by structural recursion. -/
def pow10 : ℕ → ℤ
  | 0 => 1
  | e + 1 => 10 * pow10 e

/-- A Python float, as an exact decimal `mant / 10 ^ exp`.  The script only
parses decimal literals, stores them and tests them for (in)equality, so
exact decimals carry the full content of the values involved. -/
structure PyFloat where
  mant : ℤ
  exp : ℕ
deriving DecidableEq, Repr

/-- Numeric equality of two decimals (Python `==` on numbers). -/
def pyFloatEq (a b : PyFloat) : Bool :=
  a.mant * pow10 b.exp == b.mant * pow10 a.exp

/-- Truthiness of a Python number: nonzero. -/
def pyFloatTruthy (a : PyFloat) : Bool := !(pyFloatEq a ⟨0, 0⟩)

/-- A JSON value as manipulated by the script: a number, a string, or an
object (modelled in insertion order). -/
inductive JVal where
  | num (v : PyFloat)
  | str (s : String)
  | dict (entries : List (String × JVal))

mutual

/-- Structural size of a JSON value; it strictly dominates the nesting
depth and is used as fuel for the recursive dictionary sorter. -/
def JVal.size : JVal → ℕ
  | .num _ => 1
  | .str _ => 1
  | .dict es => JVal.sizeEntries es + 1

/-- Structural size of a dict's entry list. -/
def JVal.sizeEntries : List (String × JVal) → ℕ
  | [] => 0
  | (_, v) :: rest => JVal.size v + JVal.sizeEntries rest + 1

end

/-- Python truthiness of a JSON value. -/
def pyTruthy : JVal → Bool
  | .num v => pyFloatTruthy v
  | .str s => s ≠ ""
  | .dict l => !l.isEmpty

/-- ASCII lower-casing of a character (Python `str.lower` on the ASCII
strings this script compares). -/
def lowerChar (c : Char) : Char :=
  if 'A' ≤ c ∧ c ≤ 'Z' then Char.ofNat (c.toNat + 32) else c

/-- `str.lower()` on the ASCII strings handled by the script. -/
def pyLower (s : String) : String := String.mk (s.data.map lowerChar)

/-- Parse a decimal string as Python `float` would: optional sign, integer
part, optional fractional part; `none` models `ValueError`.  (The price
feeds only ever carry plain decimals.) -/
def pyFloatParse (s : String) : Option PyFloat :=
  let core := fun (l : List Char) (sign : ℤ) =>
    let intPart := l.takeWhile Char.isDigit
    let rest := l.dropWhile Char.isDigit
    match rest with
    | [] =>
      if intPart.isEmpty then none
      else some (PyFloat.mk (sign * (intPart.foldl (fun a c => a * 10 + ((c.toNat : ℤ) - 48)) 0)) 0)
    | '.' :: frac =>
      if frac.all Char.isDigit ∧ ¬(intPart.isEmpty ∧ frac.isEmpty) then
        some (PyFloat.mk
          (sign * ((intPart ++ frac).foldl (fun a c => a * 10 + ((c.toNat : ℤ) - 48)) 0))
          frac.length)
      else none
    | _ => none
  match s.data with
  | '-' :: rest => core rest (-1)
  | '+' :: rest => core rest 1
  | l => core l 1

/-- Python `float(x)` on a JSON value: numbers are returned unchanged,
strings are parsed; anything else raises (`none`). -/
def pyFloatOf : JVal → Option PyFloat
  | .num v => some v
  | .str s => pyFloatParse s
  | .dict _ => none

/-! ## Constants of the script -/

/-- `EC2_REGIONS` (lines 40-59). -/
def EC2_REGIONS : List String :=
  ["us-east-1", "us-east-2", "us-west-1", "us-west-2", "us-gov-west-1",
   "eu-west-1", "eu-west-2", "eu-west-3", "eu-north-1", "eu-central-1",
   "ca-central-1", "ap-southeast-1", "ap-southeast-2", "ap-northeast-1",
   "ap-northeast-2", "ap-south-1", "sa-east-1", "cn-north-1"]

/-- `INSTANCE_SIZES` (lines 61-69). -/
def INSTANCE_SIZES : List String :=
  ["micro", "small", "medium", "large", "xlarge", "x-large", "extra-large"]

/-! ## The regular expression `RE_NUMERIC_OTHER`

`(?:([0-9]+)|([-A-Z_a-z]+)|([^-0-9A-Z_a-z]+))` classifies every character
into one of three disjoint classes; `findall` therefore cuts the string
into maximal runs of same-class characters, and for each run exactly one
of the three groups is the run's text and the other two are `""`. -/

/-- Characters matched by the group `[0-9]`. -/
def isNumChar (c : Char) : Bool := '0' ≤ c && c ≤ '9'

/-- Characters matched by the group `[-A-Z_a-z]`. -/
def isAlphaRunChar (c : Char) : Bool :=
  c == '-' || ('A' ≤ c && c ≤ 'Z') || c == '_' || ('a' ≤ c && c ≤ 'z')

/-- The class (0, 1 or 2) of a character under `RE_NUMERIC_OTHER`. -/
def charClass (c : Char) : ℕ :=
  if isNumChar c then 0 else if isAlphaRunChar c then 1 else 2

/-- Cut a character list into maximal runs of same-class characters.  The
fuel argument (always initialised to the length) makes the recursion
structural. -/
def runsOfFuel : ℕ → List Char → List (List Char)
  | 0, _ => []
  | _, [] => []
  | fuel + 1, c :: cs =>
    (c :: cs.takeWhile (fun d => charClass d == charClass c)) ::
      runsOfFuel fuel (cs.dropWhile (fun d => charClass d == charClass c))

/-- Maximal same-class runs of a string's characters. -/
def runsOf (l : List Char) : List (List Char) := runsOfFuel l.length l

/-- `RE_NUMERIC_OTHER.findall(s)`: one `(numeric, alpha, other)` group
triple per maximal run. -/
def RE_NUMERIC_OTHER_findall (s : String) : List (String × String × String) :=
  (runsOf s.data).map fun r =>
    match r with
    | [] => ("", "", "")
    | c :: _ =>
      if isNumChar c then (String.mk r, "", "")
      else if isAlphaRunChar c then ("", String.mk r, "")
      else ("", "", String.mk r)

/-! ## The sort key (`sort_key_by_numeric_other`, lines 188-201) -/

/-- A dynamically-typed Python value as it occurs inside the sort key:
either an `int` or a `str`.  (The script's `alpha` variable holds an `int`
right after `INSTANCE_SIZES.index(alpha)` and a `str` otherwise, before
`str(alpha)` normalises it.) -/
inductive PyObj where
  | int (n : ℤ)
  | str (s : String)
deriving DecidableEq, Repr

/-- Python `str()` of such a value. -/
def pyStr : PyObj → String
  | .int n => toString n
  | .str s => s

/-- Python `int()` of a run of decimal digits. -/
def pyInt (s : String) : ℤ :=
  (s.data.foldl (fun a c => a * 10 + (c.toNat - 48)) (0 : ℕ) : ℕ)

/-- `sort_key_by_numeric_other` (lines 188-201): map each regex match
triple to a `(numeric, alpha, other)` tuple.  `key_value` is an
`(entry key, entry value)` pair as handed over by `sorted(d.items(), ...)`,
and only its first component is used. -/
def sort_key_by_numeric_other (key_value : String × JVal) : List (PyObj × PyObj × PyObj) :=
  (RE_NUMERIC_OTHER_findall key_value.1).map fun g =>
    let numeric : PyObj := if g.1 ≠ "" then PyObj.int (pyInt g.1) else PyObj.int (-1)
    let alpha : PyObj :=
      if g.2.1 ∈ INSTANCE_SIZES then PyObj.int (List.indexOf g.2.1 INSTANCE_SIZES)
      else PyObj.str g.2.1
    let alpha : PyObj := PyObj.str (pyStr alpha)
    (numeric, alpha, PyObj.str g.2.2)

/-- Python comparison of two dynamically-typed scalars; `none` models the
`TypeError` raised when an `int` meets a `str` under `<`. -/
def pyCmpObj : PyObj → PyObj → Option Ordering
  | .int a, .int b => some (compare a b)
  | .str a, .str b => some (strCmp a b)
  | _, _ => none

/-- Python comparison of two key 3-tuples. -/
def pyCmpTriple (x y : PyObj × PyObj × PyObj) : Option Ordering :=
  match pyCmpObj x.1 y.1 with
  | none => none
  | some .eq =>
    match pyCmpObj x.2.1 y.2.1 with
    | none => none
    | some .eq => pyCmpObj x.2.2 y.2.2
    | some c => some c
  | some c => some c

/-- Python comparison of two whole sort keys (tuples of 3-tuples). -/
def pyCmpKey : List (PyObj × PyObj × PyObj) → List (PyObj × PyObj × PyObj) → Option Ordering
  | [], [] => some .eq
  | [], _ :: _ => some .lt
  | _ :: _, [] => some .gt
  | x :: xs, y :: ys =>
    match pyCmpTriple x y with
    | none => none
    | some .eq => pyCmpKey xs ys
    | some c => some c

/-- The "not greater" relation `sorted` effectively sorts by, on
`(key, value)` item pairs. -/
def leKey (p q : String × JVal) : Prop :=
  pyCmpKey (sort_key_by_numeric_other p) (sort_key_by_numeric_other q) ≠ some Ordering.gt

instance leKey.decidableRel : DecidableRel leKey := fun p q =>
  decidable_of_iff
    (pyCmpKey (sort_key_by_numeric_other p) (sort_key_by_numeric_other q) ≠ some Ordering.gt)
    Iff.rfl

/-! ## `sort_nested_dict` (lines 173-185) -/

/-- `sort_nested_dict` with structural fuel: sort the items by
`sort_key_by_numeric_other` and rebuild the dict in that order, recursing
into dict values and keeping leaves unchanged. -/
def sortFuel : ℕ → JVal → JVal
  | 0, v => v
  | fuel + 1, JVal.dict value =>
    JVal.dict ((value.insertionSort leKey).map fun p =>
      (p.1, match p.2 with
            | JVal.dict d => sortFuel fuel (JVal.dict d)
            | v => v))
  | _ + 1, v => v

/-- `sort_nested_dict` (lines 173-185).  `JVal.size` strictly dominates
the nesting depth, so the fuel never runs out. -/
def sort_nested_dict (value : JVal) : JVal := sortFuel value.size value

/-- Entries of a dict value (used to state theorems about the sorter). -/
def JVal.entries : JVal → List (String × JVal)
  | .dict es => es
  | _ => []

/-! ## Python `==` on parsed JSON documents (`data == original_data`) -/

mutual

/-- Python structural equality of JSON values: dicts compare as unordered
key/value maps (same size, and every key of the left dict is present in
the right one with an equal value), numbers by numeric value. -/
def pyEq : JVal → JVal → Bool
  | JVal.num a, JVal.num b => pyFloatEq a b
  | JVal.str a, JVal.str b => a == b
  | JVal.dict a, JVal.dict b => a.length == b.length && pyEqEntries a b
  | _, _ => false

/-- Each entry of the first dict is present with an equal value in the
second one. -/
def pyEqEntries : List (String × JVal) → List (String × JVal) → Bool
  | [], _ => true
  | (k, v) :: rest, b =>
    (match dget b k with
     | some w => pyEq v w
     | none => false) &&
      pyEqEntries rest b

end

/-! ## `scrape_ec2_pricing` (lines 78-142)

The function is pure apart from the HTTP GETs, whose parsed responses we
pass in as arguments: the legacy documents (one
`data['config']['regions']` list per URL of `LINUX_PRICING_URLS`) and a
`Fetch` function for the per-region new API (`none` models a non-200
response for that `(OS, region)` pair). -/

/-- A region-to-price dict (`result[family][instance]`). -/
abbrev RegionPrices := List (String × PyFloat)

/-- An instance-to-region-prices dict (`result[family]`). -/
abbrev FamilyTable := List (String × RegionPrices)

/-- The whole scrape result (`result`), keyed by product family. -/
abbrev ResultMap := List (String × FamilyTable)

/-- One element of `instance_type['sizes']` in a legacy document: its size
name and the USD price of its first value column
(`size['valueColumns'][0]['prices']['USD']`, a string in these feeds). -/
structure SizeEntry where
  size : String
  usd : String

/-- One element of `region_data['instanceTypes']`. -/
structure InstanceTypeEntry where
  sizes : List SizeEntry

/-- One element of `data['config']['regions']`. -/
structure LegacyRegion where
  region : String
  instanceTypes : List InstanceTypeEntry

/-- A parsed legacy document: its `data['config']['regions']` list. -/
abbrev LegacyDoc := List LegacyRegion

/-- One element of `data['prices']` in a new-API response:
`entry['attributes'].get('aws:ec2:instanceType')` and
`entry['price'].get('USD')`, each `none` when the field is absent. -/
structure PriceEntry where
  instanceTypeAttr : Option String
  usd : Option JVal

/-- The parsed new-API responses: `OS → region → entries` of
`data['prices']`, with `none` for a non-200 response. -/
abbrev Fetch := String → String → Option (List PriceEntry)

/-- `os_map` (line 80), in insertion order. -/
def OS_MAP : List (String × String) :=
  [("linux", "ec2_linux"), ("windows-std", "ec2_windows")]

/-- Lines 103-112 for a single size entry of a legacy region: ensure a
(possibly empty) row for the size, skip case-insensitive `"n/a"` prices,
otherwise store `float(price)` under the region.  `none` models the
uncaught `ValueError` of a malformed price. -/
def legacyAddSize (table : FamilyTable) (regionName : String) (se : SizeEntry) :
    Option FamilyTable :=
  let table := if !truthyOpt (dget table se.size) then dset table se.size [] else table
  if pyLower se.usd == "n/a" then some table
  else
    match pyFloatParse se.usd with
    | none => none
    | some q => some (dset table se.size (dset ((dget table se.size).getD []) regionName q))

/-- Lines 97-112 for one legacy region: walk its instance types and
sizes. -/
def legacyRegion (table : FamilyTable) (rd : LegacyRegion) : Option FamilyTable :=
  rd.instanceTypes.foldlM
    (fun t it => it.sizes.foldlM (fun t2 se => legacyAddSize t2 rd.region se) t) table

/-- Lines 78-112: initialise `result` with empty `ec2_linux`/`ec2_windows`
tables and accumulate every legacy document into `result['ec2_linux']`. -/
def legacy_scrape (docs : List LegacyDoc) : Option ResultMap := do
  let init : ResultMap := [("ec2_linux", []), ("ec2_windows", [])]
  docs.foldlM
    (fun result doc => do
      let t ← doc.foldlM legacyRegion ((dget result "ec2_linux").getD [])
      pure (dset result "ec2_linux" t))
    init

/-- The accumulator of the new-API loop: `res` (family → region →
instance → raw price) and the `instances` set. -/
abbrev ResMap := List (String × List (String × List (String × JVal)))

/-- Python `set.add`.  (CPython leaves set iteration order unspecified; we
record insertion order, and no theorem below depends on the order.) -/
def pySetAdd (s : List String) (x : String) : List String :=
  if x ∈ s then s else s ++ [x]

/-- Mutate the value stored under `k` in place (creating it from `dflt`
first if absent, as `defaultdict` does). -/
def dmod (l : List (String × α)) (k : String) (dflt : α) (f : α → α) :
    List (String × α) :=
  dset l k (f ((dget l k).getD dflt))

/-- Lines 118-132 for one OS: reset `res[os_map[OS]]`, then for every
region create `res[os_map[OS]][region]`, skip non-200 responses, and store
each entry's (possibly defaulted) instance type and USD price. -/
def newapiOS (fetch : Fetch) (st : ResMap × List String) (OS : String) :
    ResMap × List String :=
  let fam := (dget OS_MAP OS).getD ""
  let st := (dset st.1 fam [], st.2)
  EC2_REGIONS.foldl
    (fun st region =>
      let st := (dmod st.1 fam [] (fun rd => dset rd region []), st.2)
      match fetch OS region with
      | none => st
      | some entries =>
        entries.foldl
          (fun st e =>
            let instance_type := e.instanceTypeAttr.getD ""
            let insts := pySetAdd st.2 instance_type
            let price := e.usd.getD (JVal.num ⟨0, 0⟩)
            (dmod st.1 fam []
              (fun rd => dmod rd region [] (fun idict => dset idict instance_type price)),
             insts))
          st)
    st

/-- Lines 114-132: the new-API accumulation over both OSes. -/
def newapi_scrape (fetch : Fetch) : ResMap × List String :=
  ["linux", "windows-std"].foldl (newapiOS fetch) ([], [])

/-- Lines 137-140 for one region of one instance: when the stored new-API
price for the instance in this region is truthy, write its `float` into
the row (`none` models the `KeyError`/`TypeError` of a malformed `res`). -/
def merge_region_step (resItem : List (String × List (String × JVal))) (inst : String)
    (rmap : RegionPrices) (region : String) : Option RegionPrices :=
  match dget resItem region with
  | none => none
  | some rdict =>
    match dget rdict inst with
    | some p =>
      if pyTruthy p then
        match pyFloatOf p with
        | some q => some (dset rmap region q)
        | none => none
      else some rmap
    | none => some rmap

/-- Lines 134-140 for one instance: ensure a row for the instance, then
walk all regions. -/
def merge_instance_step (resItem : List (String × List (String × JVal)))
    (table : FamilyTable) (inst : String) : Option FamilyTable := do
  let table := if !truthyOpt (dget table inst) then dset table inst [] else table
  let rmap ← EC2_REGIONS.foldlM (merge_region_step resItem inst) ((dget table inst).getD [])
  pure (dset table inst rmap)

/-- Lines 133-140 for one product family. -/
def merge_item (res : ResMap) (instances : List String) (result : ResultMap)
    (item : String) : Option ResultMap := do
  let resItem := (dget res item).getD []
  let table ← instances.foldlM (merge_instance_step resItem) ((dget result item).getD [])
  pure (dset result item table)

/-- Lines 133-140: fill the result from the new-API accumulator, for every
family of `os_map.values()`, every instance of the `instances` set and
every region of `EC2_REGIONS`. -/
def merge_newapi (result : ResultMap) (res : ResMap) (instances : List String) :
    Option ResultMap :=
  (OS_MAP.map Prod.snd).foldlM (merge_item res instances) result

/-- `scrape_ec2_pricing` (lines 78-142) as a function of the parsed
responses. -/
def scrape_ec2_pricing (docs : List LegacyDoc) (fetch : Fetch) : Option ResultMap := do
  let result ← legacy_scrape docs
  let st := newapi_scrape fetch
  merge_newapi result st.1 st.2

/-- The final price stored for `(item, instance, region)` in a scrape
result. -/
def cellOf (r : ResultMap) (item inst region : String) : Option PyFloat :=
  ((dget r item).bind fun t => dget t inst).bind fun rm => dget rm region

/-- The raw new-API price stored for `(region, instance)` in one family's
slice of `res`. -/
def storedPrice (resItem : List (String × List (String × JVal))) (region inst : String) :
    Option JVal :=
  (dget resItem region).bind fun rd => dget rd inst

/-- All legacy size entries, in processing order, as
`(region, size entry)` pairs. -/
def legacySeq (docs : List LegacyDoc) : List (String × SizeEntry) :=
  docs.flatMap fun doc =>
    doc.flatMap fun rd =>
      rd.instanceTypes.flatMap fun it => it.sizes.map fun se => (rd.region, se)

/-- The USD strings of the entries of a `(region, size entry)` sequence
that hit a given `(size, region)` cell, in processing order. -/
def seqEntriesFor (seq : List (String × SizeEntry)) (size region : String) : List String :=
  (seq.filter fun p => p.2.size == size && p.1 == region).map fun p => p.2.usd

/-- The USD strings of every legacy entry for a given `(size, region)`
cell, in processing order. -/
def legacyEntriesFor (docs : List LegacyDoc) (size region : String) : List String :=
  seqEntriesFor (legacySeq docs) size region

/-! ## `update_pricing_file` (lines 145-170) -/

/-- Python `dict.update`: write the other dict's bindings in order. -/
def dictUpdate (d other : List (String × JVal)) : List (String × JVal) :=
  other.foldl (fun acc kv => dset acc kv.1 kv.2) d

/-- `update_pricing_file` (lines 145-170) on the parsed catalog `data`,
the freshly scraped `pricing_data` and the current Unix time `now`:
overlay `pricing_data` onto `data['compute']`, return without writing when
nothing changed, else stamp `updated` and write the recursively sorted
document.  `none` models an uncaught exception (no `compute` dict);
`some none` models the early return without a write; `some (some out)`
models writing `out`. -/
def update_pricing_file (data : List (String × JVal)) (pricing_data : List (String × JVal))
    (now : ℤ) : Option (Option JVal) :=
  match dget data "compute" with
  | some (JVal.dict comp) =>
    let data' := dset data "compute" (JVal.dict (dictUpdate comp pricing_data))
    if pyEq (JVal.dict data') (JVal.dict data) then some none
    else
      let data'' := dset data' "updated" (JVal.num ⟨now, 0⟩)
      some (some (sort_nested_dict (JVal.dict data'')))
  | _ => none

/-! Derived definitions used to state and prove the theorems. -/

/-- The typed content of the key tuple produced for one regex match
triple: the same data as `sort_key_by_numeric_other` produces, with the
slot types `(int, str, str)` made explicit. -/
def tkeyRun (g : String × String × String) : ℤ × String × String :=
  (if g.1 ≠ "" then pyInt g.1 else -1,
   pyStr (if g.2.1 ∈ INSTANCE_SIZES then PyObj.int (List.indexOf g.2.1 INSTANCE_SIZES)
          else PyObj.str g.2.1),
   g.2.2)

/-- The typed sort key of a string. -/
def tkey (s : String) : List (ℤ × String × String) :=
  (RE_NUMERIC_OTHER_findall s).map tkeyRun

/-- Wrap a typed key tuple as the dynamically-typed tuple the script
builds. -/
def lift3 (t : ℤ × String × String) : PyObj × PyObj × PyObj :=
  (PyObj.int t.1, PyObj.str t.2.1, PyObj.str t.2.2)

/-- Comparison of two typed key tuples (first the numeric slot, then the
alpha slot, then the other slot). -/
def cmp3 (x y : ℤ × String × String) : Ordering :=
  (compare x.1 y.1).then ((strCmp x.2.1 y.2.1).then (strCmp x.2.2 y.2.2))

/-- Comparison of two typed keys. -/
def cmpK (a b : List (ℤ × String × String)) : Ordering := lexList cmp3 a b

/-- Recursively sort the value of one dict item, keeping its key. -/
def sortPair (p : String × JVal) : String × JVal := (p.1, sort_nested_dict p.2)

/-- The price stored for `(inst, region)` in one family table. -/
def cellT (table : FamilyTable) (inst region : String) : Option PyFloat :=
  (dget table inst).bind fun rm => dget rm region

/-! Concrete inputs used by counterexamples and witnesses. -/

/-- A legacy feed carrying the single price `1.0` for
`(m1.small, us-east-1)`. -/
def docsEx : List LegacyDoc :=
  [[{ region := "us-east-1",
      instanceTypes := [{ sizes := [{ size := "m1.small", usd := "1.0" }] }] }]]

/-- A new-API feed carrying the single price `2` for
`(linux, us-east-1, m1.small)`; every other request returns non-200. -/
def fetchEx : Fetch := fun OS region =>
  if OS == "linux" && region == "us-east-1" then
    some [{ instanceTypeAttr := some "m1.small", usd := some (JVal.num ⟨2, 0⟩) }]
  else none

/-- A new-API feed where every request returns non-200. -/
def fetchNone : Fetch := fun _ _ => none

/-- A new-API accumulator storing the truthy price `2` for
`(ec2_linux, us-east-1, m1.small)` and nothing else. -/
def resW : ResMap :=
  [("ec2_linux", EC2_REGIONS.map fun r =>
      (r, if r = "us-east-1" then [("m1.small", JVal.num ⟨2, 0⟩)] else [])),
   ("ec2_windows", EC2_REGIONS.map fun r => (r, ([] : List (String × JVal))))]

/-- A new-API accumulator storing the falsy (defaulted) price `0` for
`(ec2_linux, us-east-1, m1.small)` and nothing else. -/
def resW0 : ResMap :=
  [("ec2_linux", EC2_REGIONS.map fun r =>
      (r, if r = "us-east-1" then [("m1.small", JVal.num ⟨0, 0⟩)] else [])),
   ("ec2_windows", EC2_REGIONS.map fun r => (r, ([] : List (String × JVal))))]

/-- A legacy-derived result storing the price `1.0` for
`(ec2_linux, m1.small, us-east-1)`. -/
def resultW : ResultMap :=
  [("ec2_linux", [("m1.small", [("us-east-1", (⟨10, 1⟩ : PyFloat))])]),
   ("ec2_windows", [])]

/-- The merge of `resW` into `resultW`: the new-API price overwrote the
legacy one. -/
def outW : ResultMap :=
  [("ec2_linux", [("m1.small", [("us-east-1", (⟨2, 0⟩ : PyFloat))])]),
   ("ec2_windows", [("m1.small", [])])]

/-- The merge of `resW0` into `resultW`: the falsy price wrote nothing. -/
def outW0 : ResultMap :=
  [("ec2_linux", [("m1.small", [("us-east-1", (⟨10, 1⟩ : PyFloat))])]),
   ("ec2_windows", [("m1.small", [])])]

instance decEqRegionPrices : DecidableEq RegionPrices := inferInstance

instance decEqFamilyTable : DecidableEq FamilyTable := inferInstance

instance decEqResultMap : DecidableEq ResultMap := inferInstance

/-- A legacy feed with an `"N/A"` entry and a normal entry in one
region. -/
def docsW : List LegacyDoc :=
  [[{ region := "us-east-1",
      instanceTypes := [{ sizes := [{ size := "m1.na", usd := "N/A" },
                                    { size := "m1.ok", usd := "0.5" }] }] }]]

/-- The legacy scrape of `docsW`: the `"N/A"` entry produced no cell, the
other entry was parsed and stored. -/
def outLW : ResultMap :=
  [("ec2_linux", [("m1.na", []), ("m1.ok", [("us-east-1", (⟨5, 1⟩ : PyFloat))])]),
   ("ec2_windows", [])]

/-- A catalog document with one compute family and an `updated` stamp. -/
def dataW : List (String × JVal) :=
  [("updated", JVal.num ⟨100, 0⟩), ("compute", JVal.dict [("ec2_linux", JVal.dict [])])]

/-- A scraped result that changes the catalog of `dataW`. -/
def pricingW : List (String × JVal) :=
  [("ec2_linux", JVal.dict [("a1.x", JVal.dict [("us-east-1", JVal.num ⟨3, 0⟩)])])]

/-! Theorems.  First, the generic comparator lemmas. -/

theorem lexList_eq_iff {c : α → α → Ordering} (hc : ∀ x y, c x y = .eq ↔ x = y) :
    ∀ a b : List α, lexList c a b = .eq ↔ a = b
  | [], [] => by simp [lexList]
  | [], _ :: _ => by simp [lexList]
  | _ :: _, [] => by simp [lexList]
  | x :: xs, y :: ys => by
    simp [lexList, Ordering.then_eq_eq, hc, lexList_eq_iff hc xs ys]

theorem lexList_swap {c : α → α → Ordering} (hc : ∀ x y, c y x = (c x y).swap) :
    ∀ a b : List α, lexList c b a = (lexList c a b).swap
  | [], [] => rfl
  | [], _ :: _ => rfl
  | _ :: _, [] => rfl
  | x :: xs, y :: ys => by
    show (c y x).then (lexList c ys xs) = _
    rw [hc, lexList_swap hc xs ys, ← Ordering.swap_then]
    rfl

theorem lexList_lt_trans {c : α → α → Ordering} (hceq : ∀ x y, c x y = .eq ↔ x = y)
    (hclt : ∀ x y z, c x y = .lt → c y z = .lt → c x z = .lt) :
    ∀ a b d : List α, lexList c a b = .lt → lexList c b d = .lt → lexList c a d = .lt
  | [], [], _ => by simp [lexList]
  | [], _ :: _, [] => by simp [lexList]
  | [], _ :: _, _ :: _ => by simp [lexList]
  | _ :: _, [], _ => by simp [lexList]
  | _ :: _, _ :: _, [] => by simp [lexList]
  | x :: xs, y :: ys, z :: zs => by
    simp only [lexList, Ordering.then_eq_lt]
    rintro (h1 | ⟨h1, h1'⟩) (h2 | ⟨h2, h2'⟩)
    · exact Or.inl (hclt x y z h1 h2)
    · rw [hceq] at h2; subst h2; exact Or.inl h1
    · rw [hceq] at h1; subst h1; exact Or.inl h2
    · rw [hceq] at h1 h2; subst h1; subst h2
      exact Or.inr ⟨(hceq x x).2 rfl, lexList_lt_trans hceq hclt xs ys zs h1' h2'⟩

theorem compareSwap {β : Type} [LinearOrder β] (a b : β) :
    compare b a = (compare a b).swap := by
  rcases lt_trichotomy a b with h | h | h
  · rw [compare_lt_iff_lt.2 h, compare_gt_iff_gt.2 h]; rfl
  · subst h; rw [compare_eq_iff_eq.2 rfl]; rfl
  · rw [compare_gt_iff_gt.2 h, compare_lt_iff_lt.2 h]; rfl

theorem compareLtTrans {β : Type} [LinearOrder β] {a b d : β}
    (h1 : compare a b = .lt) (h2 : compare b d = .lt) : compare a d = .lt :=
  compare_lt_iff_lt.2 (lt_trans (compare_lt_iff_lt.1 h1) (compare_lt_iff_lt.1 h2))

theorem charCmp_eq_iff (x y : Char) : charCmp x y = .eq ↔ x = y := by
  unfold charCmp
  rw [compare_eq_iff_eq]
  constructor
  · intro h
    have h2 := congrArg Char.ofNat h
    rwa [Char.ofNat_toNat, Char.ofNat_toNat] at h2
  · rintro rfl; rfl

theorem charCmp_swap (x y : Char) : charCmp y x = (charCmp x y).swap := compareSwap ..

theorem charCmp_lt_trans (x y z : Char) :
    charCmp x y = .lt → charCmp y z = .lt → charCmp x z = .lt :=
  fun h1 h2 => compareLtTrans h1 h2

theorem strCmp_eq_iff (a b : String) : strCmp a b = .eq ↔ a = b := by
  unfold strCmp
  rw [lexList_eq_iff charCmp_eq_iff]
  exact ⟨fun h => String.ext h, fun h => by rw [h]⟩

theorem strCmp_swap (a b : String) : strCmp b a = (strCmp a b).swap :=
  lexList_swap charCmp_swap a.data b.data

theorem strCmp_lt_trans {a b d : String} (h1 : strCmp a b = .lt) (h2 : strCmp b d = .lt) :
    strCmp a d = .lt :=
  lexList_lt_trans charCmp_eq_iff charCmp_lt_trans a.data b.data d.data h1 h2

theorem cmp3_eq_iff (x y : ℤ × String × String) : cmp3 x y = .eq ↔ x = y := by
  obtain ⟨x1, x2, x3⟩ := x
  obtain ⟨y1, y2, y3⟩ := y
  simp [cmp3, Ordering.then_eq_eq, compare_eq_iff_eq, strCmp_eq_iff, Prod.ext_iff, and_assoc]

theorem cmp3_swap (x y : ℤ × String × String) : cmp3 y x = (cmp3 x y).swap := by
  obtain ⟨x1, x2, x3⟩ := x
  obtain ⟨y1, y2, y3⟩ := y
  simp [cmp3, Ordering.swap_then, compareSwap x1 y1, strCmp_swap x2 y2, strCmp_swap x3 y3]

theorem cmp3_lt_trans (x y z : ℤ × String × String) :
    cmp3 x y = .lt → cmp3 y z = .lt → cmp3 x z = .lt := by
  obtain ⟨x1, x2, x3⟩ := x
  obtain ⟨y1, y2, y3⟩ := y
  obtain ⟨z1, z2, z3⟩ := z
  simp only [cmp3, Ordering.then_eq_lt, compare_eq_iff_eq, strCmp_eq_iff]
  rintro (h1 | ⟨rfl, h1 | ⟨rfl, h1⟩⟩) (h2 | ⟨rfl, h2 | ⟨rfl, h2⟩⟩)
  · exact Or.inl (compareLtTrans h1 h2)
  · exact Or.inl h1
  · exact Or.inl h1
  · exact Or.inl h2
  · exact Or.inr ⟨rfl, Or.inl (strCmp_lt_trans h1 h2)⟩
  · exact Or.inr ⟨rfl, Or.inl h1⟩
  · exact Or.inl h2
  · exact Or.inr ⟨rfl, Or.inl h2⟩
  · exact Or.inr ⟨rfl, Or.inr ⟨rfl, strCmp_lt_trans h1 h2⟩⟩

theorem cmpK_eq_iff (a b : List (ℤ × String × String)) : cmpK a b = .eq ↔ a = b :=
  lexList_eq_iff cmp3_eq_iff a b

theorem cmpK_swap (a b : List (ℤ × String × String)) : cmpK b a = (cmpK a b).swap :=
  lexList_swap cmp3_swap a b

theorem cmpK_lt_trans {a b d : List (ℤ × String × String)}
    (h1 : cmpK a b = .lt) (h2 : cmpK b d = .lt) : cmpK a d = .lt :=
  lexList_lt_trans cmp3_eq_iff cmp3_lt_trans a b d h1 h2

/-! Agreement between the script's dynamically-typed key and the typed
key, and the order properties of the item relation `leKey`. -/

theorem sort_key_eq_map (kv : String × JVal) :
    sort_key_by_numeric_other kv = (tkey kv.1).map lift3 := by
  unfold sort_key_by_numeric_other tkey
  rw [List.map_map]
  apply List.map_congr_left
  intro g _
  simp only [Function.comp, tkeyRun, lift3, apply_ite PyObj.int]

theorem pyCmpTriple_lift (a b : ℤ × String × String) :
    pyCmpTriple (lift3 a) (lift3 b) = some (cmp3 a b) := by
  obtain ⟨a1, a2, a3⟩ := a
  obtain ⟨b1, b2, b3⟩ := b
  simp only [lift3, pyCmpTriple, pyCmpObj, cmp3]
  cases compare a1 b1 <;> cases strCmp a2 b2 <;> simp [Ordering.then]

theorem pyCmpKey_map : ∀ as bs : List (ℤ × String × String),
    pyCmpKey (as.map lift3) (bs.map lift3) = some (cmpK as bs)
  | [], [] => rfl
  | [], _ :: _ => rfl
  | _ :: _, [] => rfl
  | a :: as, b :: bs => by
    show pyCmpKey (lift3 a :: as.map lift3) (lift3 b :: bs.map lift3) = _
    simp only [pyCmpKey, pyCmpTriple_lift, cmpK, lexList]
    cases cmp3 a b <;> simp [Ordering.then, pyCmpKey_map as bs, cmpK]

theorem pyCmpKey_sort_key (p q : String × JVal) :
    pyCmpKey (sort_key_by_numeric_other p) (sort_key_by_numeric_other q) =
      some (cmpK (tkey p.1) (tkey q.1)) := by
  rw [sort_key_eq_map, sort_key_eq_map, pyCmpKey_map]

theorem leKey_iff (p q : String × JVal) :
    leKey p q ↔ cmpK (tkey p.1) (tkey q.1) ≠ .gt := by
  unfold leKey
  rw [pyCmpKey_sort_key]
  constructor
  · intro h hgt; exact h (by rw [hgt])
  · intro h hgt; exact h (by injection hgt)

theorem leKey_total (p q : String × JVal) : leKey p q ∨ leKey q p := by
  rw [leKey_iff, leKey_iff]
  by_cases h : cmpK (tkey p.1) (tkey q.1) = .gt
  · right
    rw [cmpK_swap, h]
    intro h2
    injection h2
  · left; exact h

theorem leKey_trans (p q r : String × JVal) : leKey p q → leKey q r → leKey p r := by
  rw [leKey_iff, leKey_iff, leKey_iff]
  intro h1 h2
  cases hpq : cmpK (tkey p.1) (tkey q.1) with
  | gt => exact absurd hpq h1
  | eq =>
    rw [cmpK_eq_iff] at hpq
    rw [hpq]
    exact h2
  | lt =>
    cases hqr : cmpK (tkey q.1) (tkey r.1) with
    | gt => exact absurd hqr h2
    | eq =>
      rw [cmpK_eq_iff] at hqr
      rw [← hqr]
      intro h3; rw [hpq] at h3; injection h3
    | lt =>
      intro h3
      rw [cmpK_lt_trans hpq hqr] at h3
      injection h3

instance : IsTotal (String × JVal) leKey := ⟨leKey_total⟩

instance : IsTrans (String × JVal) leKey := ⟨leKey_trans⟩

/-! Claims C2, C3, C4 and C8: the sort key and the natural order. -/

theorem findall_shape (s : String) :
    ∀ g ∈ RE_NUMERIC_OTHER_findall s,
      g = (g.1, "", "") ∨ g = ("", g.2.1, "") ∨ g = ("", "", g.2.2) := by
  intro g hg
  unfold RE_NUMERIC_OTHER_findall at hg
  rw [List.mem_map] at hg
  obtain ⟨r, _, rfl⟩ := hg
  cases r with
  | nil => simp
  | cons c t =>
    cases h1 : isNumChar c with
    | true => simp [h1]
    | false =>
      cases h2 : isAlphaRunChar c with
      | true => simp [h1, h2]
      | false => simp [h1, h2]

/-- C2 (amended): a maximal decimal-digit run contributes the tuple
`(intValue(run), "", "")` and a run of characters outside all of
digits/letters/hyphen/underscore contributes `(-1, "", run)`: the second
(alpha-rank) slot of such tuples is the empty string (the script's
`str("")`), not the string `"-1"`. -/
theorem sort_key_numeric_other_runs (kv : String × JVal) (i : ℕ) (g1 g2 g3 : String)
    (hg : (RE_NUMERIC_OTHER_findall kv.1)[i]? = some (g1, g2, g3)) :
    (g1 ≠ "" →
      (sort_key_by_numeric_other kv)[i]? =
        some (PyObj.int (pyInt g1), PyObj.str "", PyObj.str "")) ∧
    (g3 ≠ "" →
      (sort_key_by_numeric_other kv)[i]? =
        some (PyObj.int (-1), PyObj.str "", PyObj.str g3)) := by
  have hmem : (g1, g2, g3) ∈ RE_NUMERIC_OTHER_findall kv.1 := by
    obtain ⟨hlt, h⟩ := List.getElem?_eq_some_iff.1 hg
    exact h ▸ List.getElem_mem hlt
  have hshape := findall_shape kv.1 (g1, g2, g3) hmem
  simp only [Prod.mk.injEq, true_and, and_true] at hshape
  have hempty : ("" : String) ∉ INSTANCE_SIZES := by decide
  have hkey : (sort_key_by_numeric_other kv)[i]? =
      Option.map
        (fun g : String × String × String =>
          (if g.1 ≠ "" then PyObj.int (pyInt g.1) else PyObj.int (-1),
           PyObj.str (pyStr
             (if g.2.1 ∈ INSTANCE_SIZES then PyObj.int (List.indexOf g.2.1 INSTANCE_SIZES)
              else PyObj.str g.2.1)),
           PyObj.str g.2.2))
        (RE_NUMERIC_OTHER_findall kv.1)[i]? := by
    unfold sort_key_by_numeric_other
    rw [List.getElem?_map]
  constructor
  · intro hnum
    obtain ⟨h2, h3⟩ : g2 = "" ∧ g3 = "" := by
      rcases hshape with ⟨h2, h3⟩ | ⟨h1, h3⟩ | ⟨h1, h2⟩
      · exact ⟨h2, h3⟩
      · exact absurd h1 hnum
      · exact absurd h1 hnum
    subst h2
    subst h3
    rw [hkey, hg]
    simp [hnum, hempty, pyStr]
  · intro hoth
    obtain ⟨h1, h2⟩ : g1 = "" ∧ g2 = "" := by
      rcases hshape with ⟨h2, h3⟩ | ⟨h1, h3⟩ | ⟨h1, h2⟩
      · exact absurd h3 hoth
      · exact absurd h3 hoth
      · exact ⟨h1, h2⟩
    subst h1
    subst h2
    rw [hkey, hg]
    simp [hempty, pyStr]

/-- C2 counterexample: on the input `"5!"` the numeric run `"5"` is mapped
to `(5, "", "")` and the other-run `"!"` to `(-1, "", "!")`; the second
slot is the empty string, not `"-1"` as the claim states. -/
theorem sort_key_alpha_slot_not_minus_one :
    sort_key_by_numeric_other ("5!", JVal.str "") =
      [(PyObj.int 5, PyObj.str "", PyObj.str ""),
       (PyObj.int (-1), PyObj.str "", PyObj.str "!")] ∧
    sort_key_by_numeric_other ("5!", JVal.str "") ≠
      [(PyObj.int 5, PyObj.str "-1", PyObj.str ""),
       (PyObj.int (-1), PyObj.str "-1", PyObj.str "!")] :=
  ⟨rfl, by decide⟩

/-- Witness for the amended C2 at the concrete input `"5!"`. -/
theorem sort_key_numeric_other_runs_witness :
    (sort_key_by_numeric_other ("5!", JVal.str ""))[0]? =
      some (PyObj.int 5, PyObj.str "", PyObj.str "") ∧
    (sort_key_by_numeric_other ("5!", JVal.str ""))[1]? =
      some (PyObj.int (-1), PyObj.str "", PyObj.str "!") :=
  ⟨(sort_key_numeric_other_runs ("5!", JVal.str "") 0 "5" "" "" (by decide)).1 (by decide),
   (sort_key_numeric_other_runs ("5!", JVal.str "") 1 "" "" "!" (by decide)).2 (by decide)⟩

/-- C3: sorting the four keys `m5.large`, `m5.xlarge`, `m5.2xlarge`,
`m5.16xlarge` (given here in plain lexicographic order) by the natural
key yields the human order, not the lexicographic one. -/
theorem natural_order_m5_sizes :
    sort_nested_dict (JVal.dict
      [("m5.16xlarge", JVal.num ⟨16, 0⟩), ("m5.2xlarge", JVal.num ⟨2, 0⟩),
       ("m5.large", JVal.num ⟨0, 0⟩), ("m5.xlarge", JVal.num ⟨1, 0⟩)]) =
    JVal.dict
      [("m5.large", JVal.num ⟨0, 0⟩), ("m5.xlarge", JVal.num ⟨1, 0⟩),
       ("m5.2xlarge", JVal.num ⟨2, 0⟩), ("m5.16xlarge", JVal.num ⟨16, 0⟩)] := rfl

/-- C4: sorting the keys `small`, `micro`, `large` (given here in
alphabetical order) by the natural key yields the size-vocabulary order
`micro, small, large`. -/
theorem natural_order_size_vocabulary :
    sort_nested_dict (JVal.dict
      [("large", JVal.num ⟨2, 0⟩), ("micro", JVal.num ⟨0, 0⟩),
       ("small", JVal.num ⟨1, 0⟩)]) =
    JVal.dict
      [("micro", JVal.num ⟨0, 0⟩), ("small", JVal.num ⟨1, 0⟩),
       ("large", JVal.num ⟨2, 0⟩)] := rfl

/-- C8: every tuple of every produced sort key has an `int` in the first
slot and `str`s in the second and third slots, and comparing any two
produced keys always succeeds (never the dynamic `TypeError`, i.e. the
comparison is `some _`), so sorting string keys is total. -/
theorem sort_key_slots_well_typed :
    (∀ kv : String × JVal,
      (sort_key_by_numeric_other kv).Forall fun t =>
        (∃ n, t.1 = PyObj.int n) ∧ (∃ a, t.2.1 = PyObj.str a) ∧ (∃ o, t.2.2 = PyObj.str o)) ∧
    (∀ kv1 kv2 : String × JVal,
      (pyCmpKey (sort_key_by_numeric_other kv1) (sort_key_by_numeric_other kv2)).isSome) := by
  constructor
  · intro kv
    rw [sort_key_eq_map, List.forall_iff_forall_mem]
    intro t ht
    rw [List.mem_map] at ht
    obtain ⟨u, _, rfl⟩ := ht
    exact ⟨⟨u.1, rfl⟩, ⟨u.2.1, rfl⟩, ⟨u.2.2, rfl⟩⟩
  · intro kv1 kv2
    rw [pyCmpKey_sort_key]
    rfl

/-! Claims C5 and C10: the recursive sorter. -/

theorem sortFuel_num (fuel : ℕ) (v : PyFloat) : sortFuel fuel (JVal.num v) = JVal.num v := by
  cases fuel <;> rfl

theorem sortFuel_str (fuel : ℕ) (s : String) : sortFuel fuel (JVal.str s) = JVal.str s := by
  cases fuel <;> rfl

theorem JVal.size_pos (v : JVal) : 1 ≤ v.size := by
  cases v <;> simp [JVal.size]

theorem JVal.sizeEntries_mem {es : List (String × JVal)} {p : String × JVal} (h : p ∈ es) :
    p.2.size ≤ JVal.sizeEntries es := by
  induction es with
  | nil => cases h
  | cons q rest ih =>
    obtain ⟨k, v⟩ := q
    rcases List.mem_cons.1 h with rfl | h2
    · simp only [JVal.sizeEntries]
      omega
    · have := ih h2
      simp only [JVal.sizeEntries]
      omega

theorem sortFuel_congr : ∀ f1 : ℕ, ∀ f2 : ℕ, ∀ v : JVal,
    v.size ≤ f1 → v.size ≤ f2 → sortFuel f1 v = sortFuel f2 v := by
  intro f1
  induction f1 with
  | zero =>
    intro f2 v h1 _
    exact absurd (le_trans v.size_pos h1) (by omega)
  | succ f1 ih =>
    intro f2 v h1 h2
    cases f2 with
    | zero => exact absurd (le_trans v.size_pos h2) (by omega)
    | succ f2 =>
      cases v with
      | num q => rfl
      | str s => rfl
      | dict es =>
        show JVal.dict _ = JVal.dict _
        congr 1
        apply List.map_congr_left
        intro p hp
        have hmem : p ∈ es := (List.mem_insertionSort leKey).1 hp
        have hbound := JVal.sizeEntries_mem hmem
        have hsz : JVal.size (JVal.dict es) = JVal.sizeEntries es + 1 := rfl
        cases hv : p.2 with
        | num q => rfl
        | str s => rfl
        | dict d =>
          have hd : JVal.size (JVal.dict d) ≤ JVal.sizeEntries es := by rw [← hv]; exact hbound
          show (p.1, sortFuel f1 (JVal.dict d)) = (p.1, sortFuel f2 (JVal.dict d))
          rw [ih f2 (JVal.dict d) (by omega) (by omega)]

theorem sort_num (v : PyFloat) : sort_nested_dict (JVal.num v) = JVal.num v := rfl

theorem sort_str (s : String) : sort_nested_dict (JVal.str s) = JVal.str s := rfl

theorem sort_dict_eq (es : List (String × JVal)) :
    sort_nested_dict (JVal.dict es) = JVal.dict ((es.insertionSort leKey).map sortPair) := by
  show JVal.dict _ = JVal.dict _
  congr 1
  apply List.map_congr_left
  intro p hp
  have hmem : p ∈ es := (List.mem_insertionSort leKey).1 hp
  have hbound := JVal.sizeEntries_mem hmem
  cases hv : p.2 with
  | num q => simp [sortPair, hv, sort_num]
  | str s => simp [sortPair, hv, sort_str]
  | dict d =>
    have hd : JVal.size (JVal.dict d) ≤ JVal.sizeEntries es := by rw [← hv]; exact hbound
    simp only [sortPair, hv]
    rw [sortFuel_congr (JVal.sizeEntries es) (JVal.size (JVal.dict d)) (JVal.dict d) hd le_rfl]
    rfl

theorem sorted_map_sortPair {L : List (String × JVal)} (h : List.Sorted leKey L) :
    List.Sorted leKey (L.map sortPair) :=
  List.Pairwise.map sortPair (fun _ _ hab => hab) h

theorem sort_idem_aux : ∀ n : ℕ, ∀ x : JVal, x.size ≤ n →
    sort_nested_dict (sort_nested_dict x) = sort_nested_dict x := by
  intro n
  induction n with
  | zero =>
    intro x h
    exact absurd (le_trans x.size_pos h) (by omega)
  | succ n ih =>
    intro x h
    cases x with
    | num q => rfl
    | str s => rfl
    | dict es =>
      rw [sort_dict_eq es]
      rw [sort_dict_eq ((es.insertionSort leKey).map sortPair)]
      congr 1
      have hsorted : List.Sorted leKey ((es.insertionSort leKey).map sortPair) :=
        sorted_map_sortPair (List.sorted_insertionSort leKey es)
      rw [hsorted.insertionSort_eq, List.map_map]
      apply List.map_congr_left
      intro p hp
      have hmem : p ∈ es := (List.mem_insertionSort leKey).1 hp
      have hbound := JVal.sizeEntries_mem hmem
      have hsize : p.2.size ≤ n := by
        have hsz : JVal.size (JVal.dict es) = JVal.sizeEntries es + 1 := rfl
        omega
      show sortPair (sortPair p) = sortPair p
      simp [sortPair, ih p.2 hsize]

/-- C5: the recursive nested-dict sorter is idempotent. -/
theorem sort_nested_dict_idempotent (x : JVal) :
    sort_nested_dict (sort_nested_dict x) = sort_nested_dict x :=
  sort_idem_aux x.size x le_rfl

/-- C10: the sorter preserves content: sorting a dict yields, up to
permutation (i.e. up to entry order), exactly the original entries with
each value recursively sorted, and every non-dict leaf is returned
unchanged. -/
theorem sort_nested_dict_preserves_content :
    (∀ es : List (String × JVal),
      (sort_nested_dict (JVal.dict es)).entries.Perm
        (es.map fun p => (p.1, sort_nested_dict p.2))) ∧
    (∀ v : PyFloat, sort_nested_dict (JVal.num v) = JVal.num v) ∧
    (∀ s : String, sort_nested_dict (JVal.str s) = JVal.str s) := by
  refine ⟨fun es => ?_, fun v => rfl, fun s => rfl⟩
  rw [sort_dict_eq es]
  show ((es.insertionSort leKey).map sortPair).Perm _
  exact (List.perm_insertionSort leKey es).map sortPair

/-! Claims C1 and C9: the merge of the new-API data into the result.
First the association-list lemmas, then a cell-level characterisation of
each loop of lines 133-140. -/

theorem dget_dset_self {α : Type} (l : List (String × α)) (k : String) (v : α) :
    dget (dset l k v) k = some v := by
  induction l with
  | nil => simp [dset, dget]
  | cons p rest ih =>
    obtain ⟨k', w⟩ := p
    by_cases h : k' = k
    · subst h
      simp [dset, dget]
    · simp [dset, dget, h, ih]

theorem dget_dset_ne {α : Type} (l : List (String × α)) (k k' : String) (v : α)
    (h : k' ≠ k) : dget (dset l k v) k' = dget l k' := by
  induction l with
  | nil => simp [dset, dget, Ne.symm h]
  | cons p rest ih =>
    obtain ⟨k'', w⟩ := p
    by_cases h2 : k'' = k
    · subst h2
      simp [dset, dget, Ne.symm h]
    · simp [dset, dget, h2, ih]

theorem merge_region_step_some (resItem : List (String × List (String × JVal)))
    (inst : String) (rmap : RegionPrices) (r : String) (rmap1 : RegionPrices)
    (h : merge_region_step resItem inst rmap r = some rmap1) :
    (∃ p q, storedPrice resItem r inst = some p ∧ pyTruthy p = true ∧
      pyFloatOf p = some q ∧ rmap1 = dset rmap r q) ∨
    ((∀ p, storedPrice resItem r inst = some p → pyTruthy p = false) ∧ rmap1 = rmap) := by
  unfold merge_region_step at h
  cases hrd : dget resItem r with
  | none => rw [hrd] at h; exact absurd h (by simp)
  | some rdict =>
    rw [hrd] at h
    dsimp only at h
    cases hin : dget rdict inst with
    | none =>
      rw [hin] at h
      dsimp only at h
      refine Or.inr ⟨fun p hp => ?_, by injection h with h2; exact h2.symm⟩
      rw [storedPrice, hrd] at hp
      simp [hin] at hp
    | some p =>
      rw [hin] at h
      dsimp only at h
      cases htr : pyTruthy p with
      | false =>
        rw [htr] at h
        simp only [if_false, Bool.false_eq_true] at h
        refine Or.inr ⟨fun p' hp' => ?_, by injection h with h2; exact h2.symm⟩
        rw [storedPrice, hrd] at hp'
        simp only [Option.some_bind, hin] at hp'
        injection hp' with he
        rwa [← he]
      | true =>
        rw [htr] at h
        simp only [if_true] at h
        cases hq : pyFloatOf p with
        | none => rw [hq] at h; exact absurd h (by simp)
        | some q =>
          rw [hq] at h
          refine Or.inl ⟨p, q, ?_, htr, hq, by injection h with h2; rw [← h2]⟩
          rw [storedPrice, hrd]
          simp [hin]

theorem region_loop_char (resItem : List (String × List (String × JVal))) (inst : String) :
    ∀ (regions : List String) (rmap rmap' : RegionPrices),
      regions.foldlM (merge_region_step resItem inst) rmap = some rmap' →
      ∀ region : String,
        (region ∈ regions →
          ∀ p, storedPrice resItem region inst = some p → pyTruthy p = true →
            ∃ q, pyFloatOf p = some q ∧ dget rmap' region = some q) ∧
        ((region ∉ regions ∨
            (∀ p, storedPrice resItem region inst = some p → pyTruthy p = false)) →
          dget rmap' region = dget rmap region) := by
  intro regions
  induction regions with
  | nil =>
    intro rmap rmap' h region
    simp only [List.foldlM_nil] at h
    injection h with h
    subst h
    exact ⟨fun hmem => absurd hmem (List.not_mem_nil region), fun _ => rfl⟩
  | cons r rest ih =>
    intro rmap rmap' h region
    rw [List.foldlM_cons] at h
    obtain ⟨rmap1, h1, h2⟩ := Option.bind_eq_some.1 h
    constructor
    · intro hmem p hp htr
      by_cases hrest : region ∈ rest
      · exact ((ih rmap1 rmap' h2 region).1 hrest) p hp htr
      · have hr : region = r := by
          rcases List.mem_cons.1 hmem with h3 | h3
          · exact h3
          · exact absurd h3 hrest
        subst hr
        rcases merge_region_step_some resItem inst rmap region rmap1 h1 with
          ⟨p', q, hp', htr', hq', heq⟩ | ⟨hfalsy, heq⟩
        · have hpp : p' = p := by rw [hp'] at hp; injection hp
          subst hpp
          refine ⟨q, hq', ?_⟩
          rw [(ih rmap1 rmap' h2 region).2 (Or.inl hrest), heq, dget_dset_self]
        · rw [hfalsy p hp] at htr
          exact absurd htr (by simp)
    · intro hcond
      rcases hcond with hnotmem | hfalsy
      · have hne : region ≠ r := fun he => hnotmem (he ▸ List.mem_cons_self r rest)
        have hrest : region ∉ rest := fun hr => hnotmem (List.mem_cons_of_mem r hr)
        rw [(ih rmap1 rmap' h2 region).2 (Or.inl hrest)]
        rcases merge_region_step_some resItem inst rmap r rmap1 h1 with
          ⟨p', q, _, _, _, heq⟩ | ⟨_, heq⟩
        · rw [heq, dget_dset_ne _ _ _ _ hne]
        · rw [heq]
      · rw [(ih rmap1 rmap' h2 region).2 (Or.inr hfalsy)]
        by_cases hne : region = r
        · subst hne
          rcases merge_region_step_some resItem inst rmap region rmap1 h1 with
            ⟨p', q, hp', htr', _, _⟩ | ⟨_, heq⟩
          · rw [hfalsy p' hp'] at htr'
            exact absurd htr' (by simp)
          · rw [heq]
        · rcases merge_region_step_some resItem inst rmap r rmap1 h1 with
            ⟨p', q, _, _, _, heq⟩ | ⟨_, heq⟩
          · rw [heq, dget_dset_ne _ _ _ _ hne]
          · rw [heq]

theorem cellT_dget (table : FamilyTable) (inst region : String) :
    cellT table inst region = dget ((dget table inst).getD []) region := by
  unfold cellT
  cases dget table inst with
  | none => simp [dget]
  | some rm => simp

theorem truthyOpt_false {α : Type} (o : Option (List α)) :
    truthyOpt o = false ↔ o = none ∨ o = some [] := by
  cases o with
  | none => simp [truthyOpt]
  | some l => cases l <;> simp [truthyOpt]

theorem merge_instance_step_char (resItem : List (String × List (String × JVal)))
    (table : FamilyTable) (inst : String) (table' : FamilyTable)
    (h : merge_instance_step resItem table inst = some table') :
    (∀ inst' region, inst' ≠ inst → cellT table' inst' region = cellT table inst' region) ∧
    (∀ region,
      (region ∈ EC2_REGIONS →
        ∀ p, storedPrice resItem region inst = some p → pyTruthy p = true →
          ∃ q, pyFloatOf p = some q ∧ cellT table' inst region = some q) ∧
      ((region ∉ EC2_REGIONS ∨
          (∀ p, storedPrice resItem region inst = some p → pyTruthy p = false)) →
        cellT table' inst region = cellT table inst region)) := by
  unfold merge_instance_step at h
  dsimp only at h
  obtain ⟨rmap', hfold, hpure⟩ := Option.bind_eq_some.1 h
  have htable' : table' =
      dset (if !truthyOpt (dget table inst) then dset table inst [] else table) inst rmap' := by
    injection hpure with h2
    exact h2.symm
  have hrmap0 : ∀ region,
      dget ((dget (if !truthyOpt (dget table inst) then dset table inst [] else table) inst).getD [])
        region = cellT table inst region := by
    intro region
    cases htr : truthyOpt (dget table inst) with
    | true => simp [htr, cellT_dget]
    | false =>
      rcases (truthyOpt_false (dget table inst)).1 htr with hd | hd <;>
        simp [htr, dget_dset_self, cellT, hd, dget]
  have hT1ne : ∀ inst', inst' ≠ inst →
      dget (if !truthyOpt (dget table inst) then dset table inst [] else table) inst' =
        dget table inst' := by
    intro inst' hne
    cases truthyOpt (dget table inst) <;> simp [dget_dset_ne _ _ _ _ hne]
  constructor
  · intro inst' region hne
    rw [cellT, htable', dget_dset_ne _ _ _ _ hne, hT1ne inst' hne, ← cellT]
  · intro region
    have hcell' : cellT table' inst region = dget rmap' region := by
      rw [cellT, htable', dget_dset_self]
      rfl
    have hchar := region_loop_char resItem inst EC2_REGIONS _ rmap' hfold region
    constructor
    · intro hmem p hp htr
      obtain ⟨q, hq, hdget⟩ := hchar.1 hmem p hp htr
      exact ⟨q, hq, by rw [hcell', hdget]⟩
    · intro hcond
      rw [hcell', hchar.2 hcond, hrmap0 region]

theorem instance_loop_char (resItem : List (String × List (String × JVal))) :
    ∀ (instances : List String) (table table' : FamilyTable),
      instances.Nodup →
      instances.foldlM (merge_instance_step resItem) table = some table' →
      ∀ inst region,
        (inst ∈ instances →
          (region ∈ EC2_REGIONS →
            ∀ p, storedPrice resItem region inst = some p → pyTruthy p = true →
              ∃ q, pyFloatOf p = some q ∧ cellT table' inst region = some q) ∧
          ((region ∉ EC2_REGIONS ∨
              (∀ p, storedPrice resItem region inst = some p → pyTruthy p = false)) →
            cellT table' inst region = cellT table inst region)) ∧
        (inst ∉ instances → cellT table' inst region = cellT table inst region) := by
  intro instances
  induction instances with
  | nil =>
    intro table table' _ h inst region
    simp only [List.foldlM_nil] at h
    injection h with h
    subst h
    exact ⟨fun hmem => absurd hmem (List.not_mem_nil inst), fun _ => rfl⟩
  | cons i rest ih =>
    intro table table' hnd h inst region
    obtain ⟨hni, hndrest⟩ := List.nodup_cons.1 hnd
    rw [List.foldlM_cons] at h
    obtain ⟨t1, h1, h2⟩ := Option.bind_eq_some.1 h
    have hstep := merge_instance_step_char resItem table i t1 h1
    have hrest := ih t1 table' hndrest h2 inst region
    constructor
    · intro hmem
      by_cases hr : inst ∈ rest
      · have hne : inst ≠ i := fun he => hni (he ▸ hr)
        have hpres : cellT t1 inst region = cellT table inst region := hstep.1 inst region hne
        refine ⟨fun hreg p hp htr => (hrest.1 hr).1 hreg p hp htr, fun hcond => ?_⟩
        rw [(hrest.1 hr).2 hcond, hpres]
      · have hi : inst = i := by
          rcases List.mem_cons.1 hmem with h3 | h3
          · exact h3
          · exact absurd h3 hr
        subst hi
        have hpres : cellT table' inst region = cellT t1 inst region := hrest.2 hr
        refine ⟨fun hreg p hp htr => ?_, fun hcond => ?_⟩
        · obtain ⟨q, hq, hc⟩ := (hstep.2 region).1 hreg p hp htr
          exact ⟨q, hq, by rw [hpres, hc]⟩
        · rw [hpres, (hstep.2 region).2 hcond]
    · intro hmem
      have hne : inst ≠ i := fun he => hmem (he ▸ List.mem_cons_self i rest)
      have hr : inst ∉ rest := fun h3 => hmem (List.mem_cons_of_mem i h3)
      rw [hrest.2 hr, hstep.1 inst region hne]

theorem cellOf_table (result : ResultMap) (item inst region : String) :
    cellOf result item inst region = cellT ((dget result item).getD []) inst region := by
  unfold cellOf cellT
  cases dget result item with
  | none => simp [dget]
  | some t => simp

theorem merge_item_char (res : ResMap) (instances : List String) (result : ResultMap)
    (item : String) (result' : ResultMap)
    (hnd : instances.Nodup)
    (h : merge_item res instances result item = some result') :
    (∀ item' inst region, item' ≠ item →
      cellOf result' item' inst region = cellOf result item' inst region) ∧
    (∀ inst region,
      (inst ∈ instances →
        (region ∈ EC2_REGIONS →
          ∀ p, storedPrice ((dget res item).getD []) region inst = some p →
            pyTruthy p = true →
            ∃ q, pyFloatOf p = some q ∧ cellOf result' item inst region = some q) ∧
        ((region ∉ EC2_REGIONS ∨
            (∀ p, storedPrice ((dget res item).getD []) region inst = some p →
              pyTruthy p = false)) →
          cellOf result' item inst region = cellOf result item inst region)) ∧
      (inst ∉ instances →
        cellOf result' item inst region = cellOf result item inst region)) := by
  unfold merge_item at h
  dsimp only at h
  obtain ⟨table', hloop, hpure⟩ := Option.bind_eq_some.1 h
  have hres' : result' = dset result item table' := by
    injection hpure with h2
    exact h2.symm
  have hchar := instance_loop_char ((dget res item).getD []) instances
    ((dget result item).getD []) table' hnd hloop
  have hcell : ∀ inst region, cellOf result' item inst region = cellT table' inst region := by
    intro inst region
    rw [hres', cellOf, dget_dset_self]
    rfl
  constructor
  · intro item' inst region hne
    rw [hres', cellOf, dget_dset_ne _ _ _ _ hne, ← cellOf]
  · intro inst region
    refine ⟨fun hmem => ⟨fun hreg p hp htr => ?_, fun hcond => ?_⟩, fun hmem => ?_⟩
    · obtain ⟨q, hq, hc⟩ := ((hchar inst region).1 hmem).1 hreg p hp htr
      exact ⟨q, hq, by rw [hcell, hc]⟩
    · rw [hcell, ((hchar inst region).1 hmem).2 hcond, ← cellOf_table]
    · rw [hcell, (hchar inst region).2 hmem, ← cellOf_table]

theorem merge_newapi_eq (result : ResultMap) (res : ResMap) (instances : List String)
    (out : ResultMap) (h : merge_newapi result res instances = some out) :
    ∃ r1, merge_item res instances result "ec2_linux" = some r1 ∧
      merge_item res instances r1 "ec2_windows" = some out := by
  unfold merge_newapi OS_MAP at h
  simp only [List.map, List.foldlM_cons, List.foldlM_nil] at h
  obtain ⟨r1, h1, h2⟩ := Option.bind_eq_some.1 h
  refine ⟨r1, h1, ?_⟩
  obtain ⟨r2, h3, h4⟩ := Option.bind_eq_some.1 h2
  injection h4 with h5
  rw [h5] at h3
  exact h3

/-- C1 (amended): when the new-API accumulator stores a truthy price for
an `(item, region, instance)` cell that the merge visits, the final
result holds that price (coerced with `float`) in the cell — overwriting
any legacy-derived value; a legacy value survives only in cells whose
stored new-API price is absent or falsy. -/
theorem merge_newapi_overwrites (result : ResultMap) (res : ResMap) (instances : List String)
    (out : ResultMap) (item inst region : String) (p : JVal) (q : PyFloat)
    (hnd : instances.Nodup)
    (h : merge_newapi result res instances = some out)
    (hitem : item ∈ ["ec2_linux", "ec2_windows"])
    (hinst : inst ∈ instances)
    (hreg : region ∈ EC2_REGIONS)
    (hp : storedPrice ((dget res item).getD []) region inst = some p)
    (htr : pyTruthy p = true)
    (hq : pyFloatOf p = some q) :
    cellOf out item inst region = some q := by
  obtain ⟨r1, h1, h2⟩ := merge_newapi_eq result res instances out h
  have hchar1 := merge_item_char res instances result "ec2_linux" r1 hnd h1
  have hchar2 := merge_item_char res instances r1 "ec2_windows" out hnd h2
  rcases List.mem_cons.1 hitem with hit | hit
  · subst hit
    obtain ⟨q', hq', hc⟩ := ((hchar1.2 inst region).1 hinst).1 hreg p hp htr
    have hqq : q' = q := by rw [hq'] at hq; injection hq
    subst hqq
    rw [hchar2.1 "ec2_linux" inst region (by decide), hc]
  · have hit2 : item = "ec2_windows" := by
      rcases List.mem_cons.1 hit with h3 | h3
      · exact h3
      · exact absurd h3 (List.not_mem_nil item)
    subst hit2
    obtain ⟨q', hq', hc⟩ := ((hchar2.2 inst region).1 hinst).1 hreg p hp htr
    have hqq : q' = q := by rw [hq'] at hq; injection hq
    subst hqq
    exact hc

/-- C1 counterexample: with a legacy feed pricing
`(ec2_linux, m1.small, us-east-1)` at `1.0` and a new-API feed pricing
the same cell at `2`, the scrape returns `2` — the legacy-derived value
is not retained, contrary to the claim.  (With the new-API feed absent
the scrape returns the legacy `1.0`, so both sources do price the cell.) -/
theorem legacy_value_overwritten_by_new_api :
    (scrape_ec2_pricing docsEx fetchNone).map
        (fun r => cellOf r "ec2_linux" "m1.small" "us-east-1") =
      some (some ⟨10, 1⟩) ∧
    (scrape_ec2_pricing docsEx fetchEx).map
        (fun r => cellOf r "ec2_linux" "m1.small" "us-east-1") =
      some (some ⟨2, 0⟩) ∧
    pyFloatEq ⟨10, 1⟩ ⟨2, 0⟩ = false := by
  refine ⟨by decide, by decide, by decide⟩

/-- Witness for the amended C1 at a concrete merge input. -/
theorem merge_newapi_overwrites_witness :
    cellOf outW "ec2_linux" "m1.small" "us-east-1" = some ⟨2, 0⟩ :=
  merge_newapi_overwrites resultW resW ["m1.small"] outW "ec2_linux" "m1.small" "us-east-1"
    (JVal.num ⟨2, 0⟩) ⟨2, 0⟩ (by decide) (by decide) (by decide) (by decide) (by decide)
    rfl rfl rfl

/-- C9: a new-API cell whose stored USD price is absent or falsy (the
defaulted `0`, a zero price, an empty string) is never written by the
gap-fill step: the result cell for that `(family, instance, region)` is
exactly the pre-merge (legacy) cell. -/
theorem merge_newapi_falsy_never_written (result : ResultMap) (res : ResMap)
    (instances : List String) (out : ResultMap) (item inst region : String)
    (hnd : instances.Nodup)
    (h : merge_newapi result res instances = some out)
    (hitem : item ∈ ["ec2_linux", "ec2_windows"])
    (hfalsy : ∀ p, storedPrice ((dget res item).getD []) region inst = some p →
      pyTruthy p = false) :
    cellOf out item inst region = cellOf result item inst region := by
  obtain ⟨r1, h1, h2⟩ := merge_newapi_eq result res instances out h
  have hchar1 := merge_item_char res instances result "ec2_linux" r1 hnd h1
  have hchar2 := merge_item_char res instances r1 "ec2_windows" out hnd h2
  rcases List.mem_cons.1 hitem with hit | hit
  · subst hit
    rw [hchar2.1 "ec2_linux" inst region (by decide)]
    by_cases hmem : inst ∈ instances
    · exact ((hchar1.2 inst region).1 hmem).2 (Or.inr hfalsy)
    · exact (hchar1.2 inst region).2 hmem
  · have hit2 : item = "ec2_windows" := by
      rcases List.mem_cons.1 hit with h3 | h3
      · exact h3
      · exact absurd h3 (List.not_mem_nil item)
    subst hit2
    have hfirst : cellOf r1 "ec2_windows" inst region = cellOf result "ec2_windows" inst region :=
      hchar1.1 "ec2_windows" inst region (by decide)
    rw [← hfirst]
    by_cases hmem : inst ∈ instances
    · exact ((hchar2.2 inst region).1 hmem).2 (Or.inr hfalsy)
    · exact (hchar2.2 inst region).2 hmem

/-- Witness for C9 at a concrete merge input with a stored zero price. -/
theorem merge_newapi_falsy_never_written_witness :
    cellOf outW0 "ec2_linux" "m1.small" "us-east-1" =
      cellOf resultW "ec2_linux" "m1.small" "us-east-1" :=
  merge_newapi_falsy_never_written resultW resW0 ["m1.small"] outW0
    "ec2_linux" "m1.small" "us-east-1" (by decide) (by decide) (by decide)
    (fun p hp => by
      have h2 : storedPrice ((dget resW0 "ec2_linux").getD []) "us-east-1" "m1.small" =
          some (JVal.num ⟨0, 0⟩) := rfl
      rw [h2] at hp
      injection hp with h3
      rw [← h3]
      rfl)

/-! Claim C6: the legacy parse and its n/a filtering. -/

theorem reset_dget_ne (table : FamilyTable) (k k' : String) (h : k' ≠ k) :
    dget (if !truthyOpt (dget table k) then dset table k [] else table) k' =
      dget table k' := by
  cases truthyOpt (dget table k) <;> simp [dget_dset_ne _ _ _ _ h]

theorem reset_row_cell (table : FamilyTable) (k region : String) :
    dget ((dget (if !truthyOpt (dget table k) then dset table k [] else table) k).getD [])
      region = cellT table k region := by
  cases htr : truthyOpt (dget table k) with
  | true => simp [htr, cellT_dget]
  | false =>
    rcases (truthyOpt_false (dget table k)).1 htr with hd | hd <;>
      simp [htr, dget_dset_self, cellT, hd, dget]

theorem reset_cellT (table : FamilyTable) (k k' region : String) :
    cellT (if !truthyOpt (dget table k) then dset table k [] else table) k' region =
      cellT table k' region := by
  by_cases hk : k' = k
  · subst hk
    rw [cellT_dget, reset_row_cell]
  · rw [cellT, reset_dget_ne table k k' hk, ← cellT]

theorem legacyAddSize_char (table : FamilyTable) (regionName : String) (se : SizeEntry)
    (table' : FamilyTable) (h : legacyAddSize table regionName se = some table') :
    ∀ size region,
      (se.size = size → regionName = region → pyLower se.usd ≠ "n/a" →
        ∃ q, pyFloatParse se.usd = some q ∧ cellT table' size region = some q) ∧
      ((se.size ≠ size ∨ regionName ≠ region ∨ pyLower se.usd = "n/a") →
        cellT table' size region = cellT table size region) := by
  unfold legacyAddSize at h
  dsimp only at h
  intro size region
  cases hna : pyLower se.usd == "n/a" with
  | true =>
    rw [hna] at h
    simp only [if_true] at h
    injection h with h2
    subst h2
    have hnaeq : pyLower se.usd = "n/a" := by
      have h3 := hna
      rwa [beq_iff_eq] at h3
    refine ⟨fun _ _ hne => absurd hnaeq hne, fun _ => reset_cellT table se.size size region⟩
  | false =>
    rw [hna] at h
    simp only [Bool.false_eq_true, if_false] at h
    cases hq : pyFloatParse se.usd with
    | none => rw [hq] at h; exact absurd h (by simp)
    | some q =>
      rw [hq] at h
      dsimp only at h
      injection h with h2
      have hnane : pyLower se.usd ≠ "n/a" := by
        intro he
        rw [← beq_iff_eq (a := pyLower se.usd)] at he
        rw [he] at hna
        exact absurd hna (by simp)
      constructor
      · intro hsz hrg _
        subst hsz
        subst hrg
        refine ⟨q, rfl, ?_⟩
        rw [← h2, cellT, dget_dset_self, Option.some_bind, dget_dset_self]
      · intro hcond
        rcases hcond with hne | hne | hne
        · rw [← h2, cellT, dget_dset_ne _ _ _ _ (fun he => hne he.symm),
            reset_dget_ne table se.size size (fun he => hne he.symm), ← cellT]
        · by_cases hsz : se.size = size
          · subst hsz
            rw [← h2, cellT, dget_dset_self, Option.some_bind,
              dget_dset_ne _ _ _ _ (fun he => hne he.symm), reset_row_cell]
          · rw [← h2, cellT, dget_dset_ne _ _ _ _ (fun he => hsz he.symm),
              reset_dget_ne table se.size size (fun he => hsz he.symm), ← cellT]
        · exact absurd hne hnane

theorem dset_eq_of_dget {α : Type} (l : List (String × α)) (k : String) (v : α)
    (h : dget l k = some v) : dset l k v = l := by
  induction l with
  | nil => simp [dget] at h
  | cons p rest ih =>
    obtain ⟨k', w⟩ := p
    by_cases h2 : k' = k
    · subst h2
      simp only [dget, if_pos rfl] at h
      injection h with h3
      simp [dset, h3]
    · simp only [dget, if_neg h2] at h
      simp [dset, h2, ih h]

theorem dset_dset {α : Type} (l : List (String × α)) (k : String) (v w : α) :
    dset (dset l k v) k w = dset l k w := by
  induction l with
  | nil => simp [dset]
  | cons p rest ih =>
    obtain ⟨k', u⟩ := p
    by_cases h2 : k' = k
    · subst h2
      simp [dset]
    · simp [dset, h2, ih]

theorem foldlM_flatMap {m : Type → Type} [Monad m] [LawfulMonad m]
    {α β γ : Type} (l : List α) (f : α → List β) (g : γ → β → m γ) :
    ∀ init : γ,
      (l.flatMap f).foldlM g init = l.foldlM (fun acc x => (f x).foldlM g acc) init := by
  induction l with
  | nil => intro init; rfl
  | cons x xs ih =>
    intro init
    rw [List.flatMap_cons, List.foldlM_append, List.foldlM_cons]
    exact bind_congr fun acc => ih acc

theorem legacyRegion_eq (table : FamilyTable) (rd : LegacyRegion) :
    legacyRegion table rd =
      (rd.instanceTypes.flatMap fun it => it.sizes.map fun se => (rd.region, se)).foldlM
        (fun t2 p => legacyAddSize t2 p.1 p.2) table := by
  unfold legacyRegion
  rw [foldlM_flatMap]
  simp only [List.foldlM_map]

theorem tableFold_eq (docs : List LegacyDoc) (t0 : FamilyTable) :
    docs.foldlM (fun table doc => doc.foldlM legacyRegion table) t0 =
      (legacySeq docs).foldlM (fun t2 p => legacyAddSize t2 p.1 p.2) t0 := by
  unfold legacySeq
  rw [foldlM_flatMap]
  have hfun : ∀ (acc : FamilyTable) (doc : LegacyDoc),
      (doc.flatMap fun rd =>
          rd.instanceTypes.flatMap fun it => it.sizes.map fun se => (rd.region, se)).foldlM
        (fun t2 p => legacyAddSize t2 p.1 p.2) acc =
      doc.foldlM legacyRegion acc := by
    intro acc doc
    rw [foldlM_flatMap]
    have h2 : ∀ (acc2 : FamilyTable) (rd : LegacyRegion),
        (rd.instanceTypes.flatMap fun it => it.sizes.map fun se => (rd.region, se)).foldlM
          (fun t2 p => legacyAddSize t2 p.1 p.2) acc2 = legacyRegion acc2 rd := by
      intro acc2 rd
      rw [← legacyRegion_eq]
    simp only [h2]
  simp only [hfun]

theorem seq_fold_char :
    ∀ (seq : List (String × SizeEntry)) (t t' : FamilyTable),
      seq.foldlM (fun t2 p => legacyAddSize t2 p.1 p.2) t = some t' →
      ∀ size region,
        ((∀ u ∈ seqEntriesFor seq size region, pyLower u = "n/a") →
          cellT t' size region = cellT t size region) ∧
        (∀ u,
          ((seqEntriesFor seq size region).filter fun u2 => !(pyLower u2 == "n/a")).getLast?
              = some u →
          ∃ q, pyFloatParse u = some q ∧ cellT t' size region = some q) := by
  intro seq
  induction seq with
  | nil =>
    intro t t' h size region
    simp only [List.foldlM_nil] at h
    injection h with h
    subst h
    refine ⟨fun _ => rfl, fun u hu => ?_⟩
    simp [seqEntriesFor] at hu
  | cons p rest ih =>
    intro t t' h size region
    rw [List.foldlM_cons] at h
    obtain ⟨t1, h1, h2⟩ := Option.bind_eq_some.1 h
    have hstep := legacyAddSize_char t p.1 p.2 t1 h1 size region
    have hrest := ih t1 t' h2 size region
    have hsplit : seqEntriesFor (p :: rest) size region =
        (if (p.2.size == size && p.1 == region) = true then [p.2.usd] else []) ++
          seqEntriesFor rest size region := by
      by_cases hm : (p.2.size == size && p.1 == region) = true
      · simp [seqEntriesFor, List.filter_cons, hm]
      · simp [seqEntriesFor, List.filter_cons, hm]
    constructor
    · intro hall
      have hallrest : ∀ u ∈ seqEntriesFor rest size region, pyLower u = "n/a" := by
        intro u hu
        refine hall u ?_
        rw [hsplit]
        exact List.mem_append_right _ hu
      rw [hrest.1 hallrest]
      by_cases hm : (p.2.size == size && p.1 == region) = true
      · have hna : pyLower p.2.usd = "n/a" := by
          refine hall p.2.usd ?_
          rw [hsplit, if_pos hm]
          exact List.mem_append_left _ (List.mem_singleton.2 rfl)
        exact hstep.2 (Or.inr (Or.inr hna))
      · have hor : p.2.size ≠ size ∨ p.1 ≠ region := by
          by_cases ha : p.2.size = size
          · refine Or.inr fun hb => ?_
            exact hm (by rw [Bool.and_eq_true, beq_iff_eq, beq_iff_eq]; exact ⟨ha, hb⟩)
          · exact Or.inl ha
        rcases hor with hne | hne
        · exact hstep.2 (Or.inl hne)
        · exact hstep.2 (Or.inr (Or.inl hne))
    · intro u hu
      rw [hsplit, List.filter_append, List.getLast?_append] at hu
      cases hF : ((seqEntriesFor rest size region).filter
          fun u2 => !(pyLower u2 == "n/a")).getLast? with
      | some u2 =>
        rw [hF, show (some u2).or ((if (p.2.size == size && p.1 == region) = true
          then [p.2.usd] else []).filter fun u3 => !(pyLower u3 == "n/a")).getLast? = some u2
          from rfl] at hu
        injection hu with hu2
        rw [hu2] at hF
        exact hrest.2 u hF
      | none =>
        rw [hF] at hu
        rw [show Option.none.or ((if (p.2.size == size && p.1 == region) = true
          then [p.2.usd] else []).filter fun u3 => !(pyLower u3 == "n/a")).getLast? =
          ((if (p.2.size == size && p.1 == region) = true
          then [p.2.usd] else []).filter fun u3 => !(pyLower u3 == "n/a")).getLast?
          from rfl] at hu
        have hallrest : ∀ u2 ∈ seqEntriesFor rest size region, pyLower u2 = "n/a" := by
          intro u2 hu2
          have h3 := List.filter_eq_nil_iff.1 (List.getLast?_eq_none_iff.1 hF) u2 hu2
          simpa [beq_iff_eq] using h3
        rw [hrest.1 hallrest]
        by_cases hm : (p.2.size == size && p.1 == region) = true
        · rw [if_pos hm] at hu
          by_cases hna : (!(pyLower p.2.usd == "n/a")) = true
          · rw [List.filter_cons] at hu
            simp only [hna, if_true, List.filter_nil] at hu
            have hup : u = p.2.usd := by
              have h4 : ([p.2.usd] : List String).getLast? = some p.2.usd := rfl
              rw [h4] at hu
              injection hu with h5
              exact h5.symm
            subst hup
            rw [Bool.and_eq_true] at hm
            obtain ⟨ha, hb⟩ := hm
            rw [beq_iff_eq] at ha hb
            have hnane : pyLower p.2.usd ≠ "n/a" := by
              intro he
              rw [← beq_iff_eq (a := pyLower p.2.usd)] at he
              rw [he] at hna
              exact absurd hna (by simp)
            exact hstep.1 ha hb hnane
          · rw [List.filter_cons] at hu
            simp only [hna, Bool.false_eq_true, if_false, List.filter_nil] at hu
            exact absurd hu (by simp)
        · rw [if_neg hm] at hu
          simp only [List.filter_nil] at hu
          exact absurd hu (by simp)

theorem legacy_scrape_aux :
    ∀ (docs : List LegacyDoc) (res : ResultMap) (t0 : FamilyTable),
      dget res "ec2_linux" = some t0 →
      docs.foldlM
          (fun result doc => do
            let t ← doc.foldlM legacyRegion ((dget result "ec2_linux").getD [])
            pure (dset result "ec2_linux" t))
          res =
        (docs.foldlM (fun table (doc : LegacyDoc) => doc.foldlM legacyRegion table) t0).map
          (fun t => dset res "ec2_linux" t) := by
  intro docs
  induction docs with
  | nil =>
    intro res t0 h
    simp only [List.foldlM_nil]
    show some res = some (dset res "ec2_linux" t0)
    rw [dset_eq_of_dget res "ec2_linux" t0 h]
  | cons doc rest ih =>
    intro res t0 h
    rw [List.foldlM_cons, List.foldlM_cons, h]
    cases hfold : doc.foldlM legacyRegion ((some t0).getD []) with
    | none =>
      rw [Option.getD_some] at hfold
      simp [hfold]
    | some t1 =>
      rw [Option.getD_some] at hfold
      rw [hfold]
      show rest.foldlM
          (fun result doc => do
            let t ← doc.foldlM legacyRegion ((dget result "ec2_linux").getD [])
            pure (dset result "ec2_linux" t))
          (dset res "ec2_linux" t1) =
        ((rest.foldlM (fun table (doc : LegacyDoc) => doc.foldlM legacyRegion table) t1).map
          (fun t => dset res "ec2_linux" t))
      rw [ih (dset res "ec2_linux" t1) t1 (dget_dset_self res "ec2_linux" t1)]
      cases rest.foldlM (fun table (doc : LegacyDoc) => doc.foldlM legacyRegion table) t1 with
      | none => rfl
      | some t2 => simp [dset_dset]

theorem legacy_scrape_eq (docs : List LegacyDoc) :
    legacy_scrape docs =
      ((legacySeq docs).foldlM (fun t2 p => legacyAddSize t2 p.1 p.2) []).map
        (fun t => dset [("ec2_linux", []), ("ec2_windows", [])] "ec2_linux" t) := by
  unfold legacy_scrape
  rw [← tableFold_eq]
  exact legacy_scrape_aux docs [("ec2_linux", []), ("ec2_windows", [])] [] rfl

/-- C6: a legacy size entry whose price is the case-insensitive string
`"n/a"` contributes no `(size, region)` cell (if every entry for the cell
is such, the cell is absent — not null, zero, or the literal string, of
which the price map holds none by type); a cell whose single legacy entry
has any other price holds exactly `float` of that price string. -/
theorem legacy_na_filtered (docs : List LegacyDoc) (out : ResultMap) (size region : String)
    (h : legacy_scrape docs = some out) :
    ((∀ u ∈ legacyEntriesFor docs size region, pyLower u = "n/a") →
      cellOf out "ec2_linux" size region = none) ∧
    (∀ u, legacyEntriesFor docs size region = [u] → pyLower u ≠ "n/a" →
      ∃ q, pyFloatParse u = some q ∧ cellOf out "ec2_linux" size region = some q) := by
  rw [legacy_scrape_eq] at h
  cases hf : (legacySeq docs).foldlM (fun t2 p => legacyAddSize t2 p.1 p.2) [] with
  | none => rw [hf] at h; exact absurd h (by simp)
  | some t =>
    rw [hf] at h
    have h2 : dset [("ec2_linux", []), ("ec2_windows", [])] "ec2_linux" t = out := by
      injection h
    have hcell : cellOf out "ec2_linux" size region = cellT t size region := by
      rw [← h2, cellOf, dget_dset_self]
      rfl
    have hchar := seq_fold_char (legacySeq docs) [] t hf size region
    constructor
    · intro hall
      rw [hcell, hchar.1 hall]
      rfl
    · intro u hu hnane
      obtain ⟨q, hq, hc⟩ := hchar.2 u (by
        rw [show seqEntriesFor (legacySeq docs) size region =
          legacyEntriesFor docs size region from rfl, hu, List.filter_cons]
        have hna : (!(pyLower u == "n/a")) = true := by
          rw [Bool.not_eq_true']
          exact beq_eq_false_iff_ne.2 hnane
        rw [if_pos hna]
        rfl)
      exact ⟨q, hq, by rw [hcell]; exact hc⟩

/-- Witness for C6 at a concrete legacy feed: the `"N/A"` entry's cell is
absent and the `"0.5"` entry's cell holds `float("0.5")`. -/
theorem legacy_na_filtered_witness :
    cellOf outLW "ec2_linux" "m1.na" "us-east-1" = none ∧
    cellOf outLW "ec2_linux" "m1.ok" "us-east-1" = some ⟨5, 1⟩ := by
  constructor
  · exact (legacy_na_filtered docsW outLW "m1.na" "us-east-1" (by decide)).1 (by decide)
  · obtain ⟨q, hq, hc⟩ :=
      (legacy_na_filtered docsW outLW "m1.ok" "us-east-1" (by decide)).2 "0.5"
        (by decide) (by decide)
    have hq5 : q = ⟨5, 1⟩ := by
      have h2 : pyFloatParse "0.5" = some (⟨5, 1⟩ : PyFloat) := rfl
      rw [h2] at hq
      injection hq with h3
      exact h3.symm
    rw [← hq5]
    exact hc

/-! Claim C7: `update_pricing_file` writes (with a fresh `updated` stamp)
exactly when the overlay changed the parsed catalog. -/

theorem mem_keys_dset {α : Type} (l : List (String × α)) (k k2 : String) (v : α) :
    k2 ∈ (dset l k v).map Prod.fst ↔ k2 ∈ l.map Prod.fst ∨ k2 = k := by
  induction l with
  | nil => simp [dset]
  | cons p rest ih =>
    obtain ⟨k', w⟩ := p
    by_cases h2 : k' = k
    · subst h2
      simp [dset]
      tauto
    · simp [dset, h2, ih]
      tauto

theorem nodup_keys_dset {α : Type} (l : List (String × α)) (k : String) (v : α)
    (h : (l.map Prod.fst).Nodup) : ((dset l k v).map Prod.fst).Nodup := by
  induction l with
  | nil => simp [dset]
  | cons p rest ih =>
    obtain ⟨k', w⟩ := p
    rw [List.map_cons, List.nodup_cons] at h
    by_cases h2 : k' = k
    · subst h2
      have hd : dset ((k', w) :: rest) k' v = (k', v) :: rest := by
        rw [dset, if_pos rfl]
      rw [hd, List.map_cons, List.nodup_cons]
      simpa using h
    · simp only [dset, if_neg h2, List.map_cons, List.nodup_cons]
      refine ⟨fun hmem => ?_, ih h.2⟩
      rcases (mem_keys_dset rest k k' v).1 hmem with h3 | h3
      · exact h.1 h3
      · exact h2 h3

theorem mem_of_dget {α : Type} (l : List (String × α)) (k : String) (v : α)
    (h : dget l k = some v) : (k, v) ∈ l := by
  induction l with
  | nil => simp [dget] at h
  | cons p rest ih =>
    obtain ⟨k', w⟩ := p
    by_cases h2 : k' = k
    · subst h2
      rw [dget, if_pos rfl] at h
      injection h with h3
      subst h3
      exact List.mem_cons_self _ _
    · rw [dget, if_neg h2] at h
      exact List.mem_cons_of_mem _ (ih h)

theorem dget_of_mem_nodup {α : Type} (l : List (String × α)) (k : String) (v : α)
    (hnd : (l.map Prod.fst).Nodup) (h : (k, v) ∈ l) : dget l k = some v := by
  induction l with
  | nil => cases h
  | cons p rest ih =>
    obtain ⟨k', w⟩ := p
    rw [List.map_cons, List.nodup_cons] at hnd
    rcases List.mem_cons.1 h with h2 | h2
    · injection h2 with h3 h4
      subst h3
      subst h4
      rw [dget, if_pos rfl]
    · have hne : k' ≠ k := by
        intro he
        subst he
        exact hnd.1 (List.mem_map.2 ⟨(k', v), h2, rfl⟩)
      rw [dget, if_neg hne]
      exact ih hnd.2 h2

theorem dget_eq_none_iff {α : Type} (l : List (String × α)) (k : String) :
    dget l k = none ↔ k ∉ l.map Prod.fst := by
  induction l with
  | nil => simp [dget]
  | cons p rest ih =>
    obtain ⟨k', w⟩ := p
    rw [dget]
    by_cases h2 : k' = k
    · subst h2
      simp
    · simp only [if_neg h2, List.map_cons, List.mem_cons, ih, not_or]
      exact ⟨fun h => ⟨fun h3 => h2 h3.symm, h⟩, fun h => h.2⟩

theorem dget_perm {α : Type} (l1 l2 : List (String × α)) (k : String)
    (hperm : l1.Perm l2) (hnd : (l1.map Prod.fst).Nodup) :
    dget l1 k = dget l2 k := by
  have hnd2 : (l2.map Prod.fst).Nodup := ((hperm.map Prod.fst).nodup_iff).1 hnd
  cases h : dget l1 k with
  | some v =>
    exact (dget_of_mem_nodup l2 k v hnd2 (hperm.mem_iff.1 (mem_of_dget l1 k v h))).symm
  | none =>
    refine ((dget_eq_none_iff l2 k).2 fun hmem => ?_).symm
    exact (dget_eq_none_iff l1 k).1 h ((hperm.map Prod.fst).mem_iff.2 hmem)

theorem dget_map_sortPair (es : List (String × JVal)) (k : String) :
    dget (es.map sortPair) k = (dget es k).map sort_nested_dict := by
  induction es with
  | nil => simp [dget]
  | cons p rest ih =>
    obtain ⟨k', v⟩ := p
    by_cases h2 : k' = k
    · subst h2
      simp [sortPair, dget]
    · simp [sortPair, dget, h2, ih]

theorem dget_sort_entries (es : List (String × JVal)) (k : String)
    (hnd : (es.map Prod.fst).Nodup) :
    dget (sort_nested_dict (JVal.dict es)).entries k = (dget es k).map sort_nested_dict := by
  rw [sort_dict_eq]
  show dget ((es.insertionSort leKey).map sortPair) k = _
  rw [dget_perm ((es.insertionSort leKey).map sortPair) (es.map sortPair) k
      ((List.perm_insertionSort leKey es).map sortPair)
      (by
        have hkeys : ((es.insertionSort leKey).map sortPair).map Prod.fst =
            (es.insertionSort leKey).map Prod.fst := by
          rw [List.map_map]
          rfl
        rw [hkeys]
        exact (((List.perm_insertionSort leKey es).map Prod.fst).nodup_iff).2 hnd),
    dget_map_sortPair]

/-- C7: if overlaying the scraped tables onto the catalog's `compute`
dict yields a document structurally equal (Python `==`) to the one read,
`update_pricing_file` returns without writing (so `updated` keeps its old
value on disk); otherwise it writes a document whose `updated` entry is
the current Unix timestamp. -/
theorem update_pricing_file_noop_or_stamps (data : List (String × JVal))
    (pricing_data : List (String × JVal)) (now : ℤ) (comp : List (String × JVal))
    (hcomp : dget data "compute" = some (JVal.dict comp))
    (hnd : (data.map Prod.fst).Nodup) :
    (pyEq (JVal.dict (dset data "compute" (JVal.dict (dictUpdate comp pricing_data))))
        (JVal.dict data) = true →
      update_pricing_file data pricing_data now = some none) ∧
    (pyEq (JVal.dict (dset data "compute" (JVal.dict (dictUpdate comp pricing_data))))
        (JVal.dict data) = false →
      ∃ es, update_pricing_file data pricing_data now = some (some (JVal.dict es)) ∧
        dget es "updated" = some (JVal.num ⟨now, 0⟩)) := by
  unfold update_pricing_file
  rw [hcomp]
  dsimp only
  constructor
  · intro heq
    rw [heq]
    rfl
  · intro hne
    rw [hne]
    simp only [Bool.false_eq_true, if_false]
    set data2 := dset (dset data "compute" (JVal.dict (dictUpdate comp pricing_data)))
      "updated" (JVal.num ⟨now, 0⟩) with hdata2
    have hnd2 : (data2.map Prod.fst).Nodup :=
      nodup_keys_dset _ _ _ (nodup_keys_dset _ _ _ hnd)
    refine ⟨(sort_nested_dict (JVal.dict data2)).entries, ?_, ?_⟩
    · rw [sort_dict_eq]
      rfl
    · rw [dget_sort_entries data2 "updated" hnd2, hdata2, dget_dset_self]
      rfl
/-- Witness for C7: at `dataW`/`pricingW` the overlay changes the catalog
and the function stamps `updated` with the given time; with an empty
scrape result nothing changes and no write happens. -/
theorem update_pricing_file_noop_or_stamps_witness :
    (∃ es, update_pricing_file dataW pricingW 1700000000 = some (some (JVal.dict es)) ∧
      dget es "updated" = some (JVal.num ⟨1700000000, 0⟩)) ∧
    update_pricing_file dataW [] 1700000000 = some none :=
  ⟨(update_pricing_file_noop_or_stamps dataW pricingW 1700000000
      [("ec2_linux", JVal.dict [])] rfl (by decide)).2 rfl,
   (update_pricing_file_noop_or_stamps dataW [] 1700000000
      [("ec2_linux", JVal.dict [])] rfl (by decide)).1 rfl⟩
